import Mathlib

/-!
Verification of the bounded same-domain crawler and contact-extraction
heuristics of `restuarantinfo.py`.

The Python source is embedded shallowly:

* plain text and HTML markup are `List Char`;
* Python sets are lists grown by a membership-guarded append (`addSet`),
  so the length of such a list is the size of the set;
* the regex `@[A-Za-z0-9.\-]+\.[A-Za-z]{2,}` of `extract_emails` is embedded
  by an explicit backtracking matcher (`tryMatch` / `findMatches`) that
  mirrors the leftmost-scan, greedy-with-backtracking semantics of `re`;
* `str.find` / `str.rfind` / `str.endswith` / slicing are embedded over
  `List Char` (`ffind`, `rfindL`, `isSuffixB`, `take`/`drop`);
* the crawl of `scrape_emails_and_pos_from_website` is a step function on a
  `CrawlState`, driven by a fuel-indexed loop whose condition mirrors
  `while to_scrape and links_scraped < max_links`.  The library collaborators
  `urljoin`/`urlparse`/HTTP-get are abstracted into a `WebEnv` record, and the
  state carries two pieces of pure instrumentation (`errors`, `fetched`) that
  record fetch failures and the sequence of attempted fetches without
  influencing any behaviour.

All local parts scanned by `extract_emails` consist of characters from the
ASCII set `allowed_chars` of the source, so `str.lower` is embedded as the
ASCII lowering `pyLower`.
-/

set_option linter.unusedSectionVars false

namespace RInfo

/-! ### Character classes (from the regexes and `allowed_chars`) -/

def isAlphaB (c : Char) : Bool :=
  (65 ≤ c.toNat && c.toNat ≤ 90) || (97 ≤ c.toNat && c.toNat ≤ 122)

def isDigitB (c : Char) : Bool :=
  48 ≤ c.toNat && c.toNat ≤ 57

def isAlnumB (c : Char) : Bool := isAlphaB c || isDigitB c

/-- characters allowed in the domain by `@[A-Za-z0-9.\-]+...` -/
def isDomainChar (c : Char) : Bool :=
  isAlphaB c || isDigitB c || c == '.' || c == '-'

/-- `allowed_chars` of `extract_emails`: `A-Za-z0-9._%+-` -/
def isLocalChar (c : Char) : Bool :=
  isAlphaB c || isDigitB c || c == '.' || c == '_' || c == '%' || c == '+' || c == '-'

/-- `str.lower` on the ASCII range (all repaired local parts are ASCII). -/
def pyLower (c : Char) : Char :=
  match c with
  | 'A' => 'a' | 'B' => 'b' | 'C' => 'c' | 'D' => 'd' | 'E' => 'e'
  | 'F' => 'f' | 'G' => 'g' | 'H' => 'h' | 'I' => 'i' | 'J' => 'j'
  | 'K' => 'k' | 'L' => 'l' | 'M' => 'm' | 'N' => 'n' | 'O' => 'o'
  | 'P' => 'p' | 'Q' => 'q' | 'R' => 'r' | 'S' => 's' | 'T' => 't'
  | 'U' => 'u' | 'V' => 'v' | 'W' => 'w' | 'X' => 'x' | 'Y' => 'y'
  | 'Z' => 'z' | d => d

def pyLowerL (l : List Char) : List Char := l.map pyLower

/-! ### Substring search primitives (`in`, `str.find`, `str.rfind`) -/

def isPrefixB : List Char → List Char → Bool
  | [], _ => true
  | _ :: _, [] => false
  | a :: as, b :: bs => a == b && isPrefixB as bs

/-- `str.endswith` -/
def isSuffixB (suf s : List Char) : Bool := isPrefixB suf.reverse s.reverse

/-- scan for the first occurrence of `sub`, reporting its index (`str.find`). -/
def ffindAux (sub : List Char) : List Char → Nat → Option Nat
  | rest, i =>
    if isPrefixB sub rest then some i
    else
      match rest with
      | [] => none
      | _ :: t => ffindAux sub t (i + 1)

def ffind (sub s : List Char) : Option Nat := ffindAux sub s 0

/-- Python's `sub in s` -/
def containsSubB (sub s : List Char) : Bool := (ffind sub s).isSome

/-- `str.rfind`: the largest index at which `sub` occurs, if any. -/
def rfindAux (sub s : List Char) : Nat → Option Nat
  | 0 => if isPrefixB sub s then some 0 else none
  | i + 1 => if isPrefixB sub (s.drop (i + 1)) then some (i + 1) else rfindAux sub s i

def rfindL (sub s : List Char) : Option Nat := rfindAux sub s s.length

/-! ### The domain regex of `extract_emails`

`domain_pattern = r'@[A-Za-z0-9.\-]+\.[A-Za-z]{2,}'`, matched by `re.finditer`.
At an `@`, the greedy body backtracks downward until a literal `.` followed by
at least two alphabetic characters is found; the trailing `[A-Za-z]{2,}` then
greedily takes the whole alphabetic run. -/

def alphaRunLen (l : List Char) : Nat := (l.takeWhile isAlphaB).length

/-- largest body length `b ≥ 1` (tried greedily downward, as `re` backtracks)
such that the body is in the domain class, is followed by `'.'`, and then by
at least two alphabetic characters. -/
def findBodyLen (rest : List Char) : Nat → Option Nat
  | 0 => none
  | k + 1 =>
    if (rest.take (k + 1)).all isDomainChar
        ∧ (rest.drop (k + 1)).head? = some '.'
        ∧ 2 ≤ alphaRunLen (rest.drop (k + 2))
    then some (k + 1)
    else findBodyLen rest k

/-- attempt to match `domain_pattern` at the head; returns the match length. -/
def tryMatch : List Char → Option Nat
  | [] => none
  | c :: rest =>
    if c = '@' then
      match findBodyLen rest rest.length with
      | some b => some (1 + b + 1 + alphaRunLen (rest.drop (b + 1)))
      | none => none
    else none

/-- `re.finditer`: scan left to right, resuming after each (non-empty) match;
returns `(start, length)` pairs. -/
def findMatchesAux (text : List Char) : Nat → Nat → List (Nat × Nat)
  | 0, _ => []
  | f + 1, pos =>
    match tryMatch (text.drop pos) with
    | some L => (pos, L) :: findMatchesAux text f (pos + L)
    | none => if pos < text.length then findMatchesAux text f (pos + 1) else []

def findMatches (text : List Char) : List (Nat × Nat) :=
  findMatchesAux text (text.length + 1) 0

/-- `re.match(r'^[A-Za-z0-9.\-]+\.[A-Za-z]{2,}$', domain)`: some split into a
nonempty domain-class body, a dot, and an all-alphabetic tail of length ≥ 2. -/
def domainValid (d : List Char) : Bool :=
  (List.range (d.length + 1)).any fun k =>
    decide (1 ≤ k) && (d.take k).all isDomainChar
      && decide ((d.drop k).head? = some '.')
      && (d.drop (k + 1)).all isAlphaB && decide (2 ≤ (d.drop (k + 1)).length)

/-! ### Local-part repair of `extract_emails` -/

def knownUsernames : List (List Char) :=
  ["info".toList, "contact".toList, "reservations".toList,
   "sales".toList, "support".toList, "admin".toList]

/-- `re.findall(r'[A-Za-z]+', s)`: the maximal alphabetic runs, in order.
`cur` accumulates the (reversed) run currently being read. -/
def alphaRunsAux : List Char → List Char → List (List Char)
  | [], cur => if cur = [] then [] else [cur.reverse]
  | c :: rest, cur =>
    if isAlphaB c then alphaRunsAux rest (c :: cur)
    else if cur = [] then alphaRunsAux rest []
    else cur.reverse :: alphaRunsAux rest []

def alphaRuns (l : List Char) : List (List Char) := alphaRunsAux l []

/-- the repair step of `extract_emails`: first try the known-username suffix
match (`l_lower.endswith(uname)`, trimming at `l_lower.rfind(uname)`),
otherwise trim at the rightmost occurrence of the last maximal alphabetic run
(`local_part.lower().rfind(last_alpha.lower())`).  The `none` arms of the
`rfind` matches are unreachable (the sought string always occurs). -/
def repairLocal (lp : List Char) : List Char :=
  match knownUsernames.find? (fun u => isSuffixB u (pyLowerL lp)) with
  | some uname =>
    match rfindL uname (pyLowerL lp) with
    | some idx => lp.drop idx
    | none => lp
  | none =>
    match (alphaRuns lp).getLast? with
    | some run =>
      match rfindL (pyLowerL run) (pyLowerL lp) with
      | some idx => lp.drop idx
      | none => lp
    | none => lp

/-- repair followed by `re.sub(r'^[^A-Za-z0-9]+', '', local_part)`. -/
def finalLocal (lp : List Char) : List Char :=
  (repairLocal lp).dropWhile fun c => !isAlnumB c

/-! ### `extract_emails` -/

/-- Python-set insertion: sets are embedded as duplicate-free lists. -/
def addSet {α : Type} [DecidableEq α] (acc : List α) (x : α) : List α :=
  if x ∈ acc then acc else acc ++ [x]

/-- the processing of one `re.finditer` match `(start, length)`: validate the
domain, scan the local characters backwards, repair, strip, compose. -/
def candidateFor (text : List Char) (m : Nat × Nat) : Option (List Char) :=
  let domain := ((text.drop m.1).take m.2).drop 1
  if domainValid domain = true then
    let lp := ((text.take m.1).reverse.takeWhile isLocalChar).reverse
    if lp = [] then none
    else
      let loc := finalLocal lp
      if loc = [] then none else some (loc ++ '@' :: domain)
  else none

def extract_emails (text : List Char) : List (List Char) :=
  (findMatches text).foldl
    (fun acc m =>
      match candidateFor text m with
      | some e => addSet acc e
      | none => acc)
    []

/-! ### The per-page `.com` post-pass of `scrape_emails_and_pos_from_website` -/

def comL : List Char := ".com".toList

/-- `if '@' in email and '.com' in email: email[:email.find('.com')+4]` -/
def cleanupEmail (e : List Char) : List Char :=
  if ('@' ∈ e) ∧ (ffind comL e).isSome then
    match ffind comL e with
    | some i => e.take (i + 4)
    | none => e
  else e

/-- extraction followed by the post-pass, collected into a set, as one page of
the crawl does starting from an empty accumulator. -/
def pipelineEmails (text : List Char) : List (List Char) :=
  (extract_emails text).foldl (fun acc e => addSet acc (cleanupEmail e)) []

/-! ### `detect_reservation_platform` -/

def detect_reservation_platform (html : List Char) : List Char :=
  if containsSubB "id=\"resy_button_container\"".toList html
      || containsSubB "widgets.resy.com".toList html
      || containsSubB "resy.com".toList html
      || containsSubB "Resy".toList html then "Resy".toList
  else if containsSubB "OpenTable".toList html
      || containsSubB "opentable.com".toList html then "OpenTable".toList
  else if containsSubB "Tock".toList html
      || containsSubB "exploretock.com".toList html then "Tock".toList
  else []

/-! ### The crawl of `scrape_emails_and_pos_from_website`

The HTML parser and HTTP layer are external collaborators; a `WebEnv` packages
them: `fetch` returns the parsed page of a URL or `none` for a
`requests.exceptions.RequestException` (network error, timeout, non-2xx via
`raise_for_status`), and `urljoin`/`netloc`/`pathEndsWithBad`/`lowerUrl`
abstract `urllib.parse.urljoin` and `urlparse` plus `str.lower` on URLs. -/

/-- a fetched page: `soup.get_text()`, `soup.prettify()`, and the
`(href, inner text)` pairs of `soup.find_all('a', href=True)`. -/
structure Page where
  text : List Char
  html : List Char
  anchors : List (List Char × List Char)

structure WebEnv (Url : Type) where
  fetch : Url → Option Page
  urljoin : Url → List Char → Url
  netloc : Url → List Char
  pathEndsWithBad : Url → Bool
  lowerUrl : Url → List Char

/-- the mutable state of one crawl.  `errors` and `fetched` are pure
instrumentation: the count of URLs whose fetch raised, and the sequence of
URLs for which a fetch was attempted; no behaviour reads them. -/
structure CrawlState (Url : Type) where
  emails : List (List Char)
  posSystem : List Char
  loyalty : List (List Char)
  resPlatform : List Char
  toScrape : List Url
  visited : List Url
  linksScraped : Nat
  errors : Nat
  fetched : List Url

variable {Url : Type} [DecidableEq Url]

def initState (startUrl : Url) : CrawlState Url :=
  { emails := [], posSystem := [], loyalty := [], resPlatform := [],
    toScrape := [startUrl], visited := [], linksScraped := 0,
    errors := 0, fetched := [] }

def keywords : List (List Char) :=
  ["reservation".toList, "book".toList, "resy".toList,
   "opentable".toList, "tock".toList]

/-- the link-gathering loop of one page: resolve each anchor, keep same-host
links without a blocked document extension, and bucket them into
`(priority_links, normal_links)` by keyword match. -/
def classifyLinks (env : WebEnv Url) (b : List Char) (url : Url)
    (anchors : List (List Char × List Char)) : List Url × List Url :=
  anchors.foldl
    (fun acc a =>
      let abs := env.urljoin url a.1
      if env.netloc abs = b then
        if env.pathEndsWithBad abs then acc
        else
          let ltext := pyLowerL a.2
          let lurl := env.lowerUrl abs
          if keywords.any (fun k => containsSubB k ltext || containsSubB k lurl)
          then (acc.1 ++ [abs], acc.2)
          else (acc.1, acc.2 ++ [abs])
      else acc)
    ([], [])

/-- one guarded frontier append:
`if len(visited) + len(to_scrape) < max_links + 1: to_scrape.append(l)`. -/
def enqueue (m : Nat) (visited front : List Url) (u : Url) : List Url :=
  if visited.length + front.length < m + 1 then front ++ [u] else front

def enqueueAll (m : Nat) (visited front : List Url) (links : List Url) : List Url :=
  links.foldl (enqueue m visited) front

/-- the body of a successful fetch: extract and clean emails, update POS /
loyalty / reservation findings, classify the page's links and append the
priority bucket then the normal bucket under the admission guard, and count
the page as scraped. -/
def processPage (env : WebEnv Url) (b : List Char) (m : Nat) (url : Url)
    (pg : Page) (st : CrawlState Url) : CrawlState Url :=
  let emails' := (extract_emails pg.text).foldl
      (fun acc e => addSet acc (cleanupEmail e)) st.emails
  let pos' := if containsSubB "www.toasttab.com".toList pg.html
        ∧ st.posSystem ≠ "Toast".toList then "Toast".toList else st.posSystem
  let loy1 := if containsSubB "inkindscript.com".toList pg.html
        ∧ "inKind".toList ∉ st.loyalty then st.loyalty ++ ["inKind".toList]
      else st.loyalty
  let loy2 := if containsSubB "spoton.com".toList pg.html
        ∧ "SpotOn".toList ∉ loy1 then loy1 ++ ["SpotOn".toList] else loy1
  let res' := if st.resPlatform = [] then
        let p := detect_reservation_platform pg.html
        if p ≠ [] then p else st.resPlatform
      else st.resPlatform
  let pr := classifyLinks env b url pg.anchors
  let front1 := enqueueAll m st.visited st.toScrape pr.1
  let front2 := enqueueAll m st.visited front1 pr.2
  { st with emails := emails', posSystem := pos', loyalty := loy2,
            resPlatform := res', toScrape := front2,
            linksScraped := st.linksScraped + 1 }

/-- one iteration of the `while` loop: pop the frontier head, skip it if
already visited, otherwise mark it visited and attempt the fetch; a failure
is logged and skipped (instrumented in `errors`/`fetched`). -/
def crawlStep (env : WebEnv Url) (b : List Char) (m : Nat)
    (st : CrawlState Url) : CrawlState Url :=
  match st.toScrape with
  | [] => st
  | u :: rest =>
    if u ∈ st.visited then { st with toScrape := rest }
    else
      match env.fetch u with
      | none =>
        { st with toScrape := rest, visited := st.visited ++ [u],
                  fetched := st.fetched ++ [u], errors := st.errors + 1 }
      | some pg =>
        processPage env b m u pg
          { st with toScrape := rest, visited := st.visited ++ [u],
                    fetched := st.fetched ++ [u] }

/-- `while to_scrape and links_scraped < max_links`, with explicit fuel; the
loop body pops one URL per iteration, so any sufficiently large fuel reaches
the terminal state. -/
def crawlLoop (env : WebEnv Url) (b : List Char) (m : Nat) :
    Nat → CrawlState Url → CrawlState Url
  | 0, st => st
  | fuel + 1, st =>
    if st.toScrape = [] ∨ m ≤ st.linksScraped then st
    else crawlLoop env b m fuel (crawlStep env b m st)

def scrape_emails_and_pos_from_website (env : WebEnv Url) (startUrl : Url)
    (maxLinks fuel : Nat) : CrawlState Url :=
  crawlLoop env (env.netloc startUrl) maxLinks fuel (initState startUrl)

/-! ### Concrete inputs used by the claims -/

/-- after repair, a local part is a dot-free block followed by characters
with no alphabetic character among them; `.com` can therefore not occur in
it (proved below). -/
def cleanShape (r : List Char) : Prop :=
  ∃ u v, r = u ++ v ∧ '.' ∉ u ∧ ∀ c ∈ v, isAlphaB c = false

/-- the inductive invariant of the crawl loop: the admission cap, the
accounting of visited URLs against successes and failures, the budget bound,
and uniqueness of visits and fetch attempts. -/
def CrawlInv (m : Nat) (st : CrawlState Url) : Prop :=
  st.visited.length + st.toScrape.length ≤ m + 1 ∧
  st.visited.length = st.linksScraped + st.errors ∧
  st.linksScraped ≤ m ∧
  st.visited.Nodup ∧
  st.fetched.Nodup ∧
  ∀ u ∈ st.fetched, u ∈ st.visited

def c1text : List Char := "reach bob.smith123@place.co.uk".toList
def c2text : List Char := "Email us at homeinfo@restaurant.com for bookings".toList
def c3text : List Char := "go a@b.com now".toList
def c9text : List Char := "write a@b.org ok".toList

def pageEmpty : Page := { text := [], html := [], anchors := [] }

def pageResy0 : Page :=
  { text := [], html := "xx Resy xx".toList, anchors := [("p1".toList, [])] }

def pageResy1 : Page :=
  { text := [], html := "zz OpenTable zz".toList, anchors := [] }

/-- two-page site: the start page's markup contains `Resy`, the page it links
to contains `OpenTable` (claim C4's scenario). -/
def envResy : WebEnv (List Char) :=
  { fetch := fun u =>
      if u = "p0".toList then some pageResy0
      else if u = "p1".toList then some pageResy1
      else none,
    urljoin := fun _ h => h,
    netloc := fun _ => [],
    pathEndsWithBad := fun _ => false,
    lowerUrl := fun u => pyLowerL u }

def pagePrioStart : Page :=
  { text := [], html := [],
    anchors := [("bookA".toList, []), ("bookB".toList, []),
                ("bookC".toList, []), ("n1".toList, []),
                ("n2".toList, []), ("n3".toList, []),
                ("n4".toList, []), ("n5".toList, [])] }

/-- start page with 3 priority links (`book…`) and 5 normal links, the
priority pages fetching successfully with no content (claim C8's witness). -/
def envPrio : WebEnv (List Char) :=
  { fetch := fun u =>
      if u = "s".toList then some pagePrioStart
      else if u = "bookA".toList ∨ u = "bookB".toList ∨ u = "bookC".toList then
        some pageEmpty
      else none,
    urljoin := fun _ h => h,
    netloc := fun _ => [],
    pathEndsWithBad := fun _ => false,
    lowerUrl := fun u => pyLowerL u }

def pageDupStart : Page :=
  { text := [], html := [],
    anchors := [("a".toList, []), ("a".toList, []),
                ("a".toList, []), ("b".toList, [])] }

/-- start page linking the same URL three times before a fresh one: duplicate
frontier entries consume admission slots (claim C10's scenario). -/
def envDup : WebEnv (List Char) :=
  { fetch := fun u =>
      if u = "s".toList then some pageDupStart
      else if u = "a".toList then some pageEmpty
      else none,
    urljoin := fun _ h => h,
    netloc := fun _ => [],
    pathEndsWithBad := fun _ => false,
    lowerUrl := fun u => pyLowerL u }

/-- an environment where every fetch fails (claim C7's witness). -/
def envFail : WebEnv (List Char) :=
  { fetch := fun _ => none,
    urljoin := fun _ h => h,
    netloc := fun _ => [],
    pathEndsWithBad := fun _ => false,
    lowerUrl := fun u => pyLowerL u }

/-! ### Prefix / suffix / search lemmas -/

theorem isPrefixB_iff (p l : List Char) : isPrefixB p l = true ↔ ∃ t, l = p ++ t := by
  induction p generalizing l with
  | nil => simp [isPrefixB]
  | cons a as ih =>
    cases l with
    | nil => simp [isPrefixB]
    | cons b bs =>
      simp only [isPrefixB, Bool.and_eq_true, beq_iff_eq, ih, List.cons_append,
        List.cons.injEq]
      constructor
      · rintro ⟨h1, t, h2⟩
        exact ⟨t, h1.symm, h2⟩
      · rintro ⟨t, h1, h2⟩
        exact ⟨h1.symm, t, h2⟩

theorem isPrefixB_length {p l : List Char} (h : isPrefixB p l = true) :
    p.length ≤ l.length := by
  obtain ⟨t, rfl⟩ := (isPrefixB_iff p l).1 h
  simp

theorem isPrefixB_self_append (p t : List Char) : isPrefixB p (p ++ t) = true :=
  (isPrefixB_iff p (p ++ t)).2 ⟨t, rfl⟩

theorem isSuffixB_iff (suf l : List Char) :
    isSuffixB suf l = true ↔ ∃ p, l = p ++ suf := by
  unfold isSuffixB
  rw [isPrefixB_iff]
  constructor
  · rintro ⟨t, ht⟩
    refine ⟨t.reverse, ?_⟩
    have h2 := congrArg List.reverse ht
    simpa using h2
  · rintro ⟨p, rfl⟩
    exact ⟨p.reverse, by simp⟩

theorem ffindAux_spec {sub : List Char} :
    ∀ (rest : List Char) (i j : Nat), ffindAux sub rest i = some j →
      i ≤ j ∧ isPrefixB sub (rest.drop (j - i)) = true ∧
        ∀ k, i ≤ k → k < j → isPrefixB sub (rest.drop (k - i)) = false := by
  intro rest
  induction rest with
  | nil =>
    intro i j h
    unfold ffindAux at h
    by_cases hp : isPrefixB sub [] = true
    · simp [hp] at h
      subst h
      refine ⟨le_rfl, by simpa using hp, ?_⟩
      intro k hk1 hk2
      omega
    · simp [hp] at h
  | cons c t ih =>
    intro i j h
    unfold ffindAux at h
    by_cases hp : isPrefixB sub (c :: t) = true
    · simp [hp] at h
      subst h
      refine ⟨le_rfl, by simpa using hp, ?_⟩
      intro k hk1 hk2
      omega
    · simp [hp] at h
      obtain ⟨h1, h2, h3⟩ := ih (i + 1) j h
      refine ⟨by omega, ?_, ?_⟩
      · have he : j - i = (j - (i + 1)) + 1 := by omega
        rw [he, List.drop_succ_cons]
        exact h2
      · intro k hk1 hk2
        rcases Nat.eq_or_lt_of_le hk1 with rfl | hlt
        · simpa using (by simpa using hp : isPrefixB sub (c :: t) = false)
        · have he : k - i = (k - (i + 1)) + 1 := by omega
          rw [he, List.drop_succ_cons]
          exact h3 k hlt hk2

theorem ffind_spec {sub s : List Char} {j : Nat} (h : ffind sub s = some j) :
    isPrefixB sub (s.drop j) = true ∧
      ∀ k < j, isPrefixB sub (s.drop k) = false := by
  obtain ⟨_, h2, h3⟩ := ffindAux_spec s 0 j h
  exact ⟨by simpa using h2, fun k hk => by simpa using h3 k (Nat.zero_le k) hk⟩

theorem rfindAux_le {sub s : List Char} :
    ∀ k j, rfindAux sub s k = some j → j ≤ k ∧ isPrefixB sub (s.drop j) = true := by
  intro k
  induction k with
  | zero =>
    intro j h
    unfold rfindAux at h
    by_cases hp : isPrefixB sub s = true
    · simp [hp] at h
      subst h
      exact ⟨le_rfl, by simpa using hp⟩
    · simp [hp] at h
  | succ k ih =>
    intro j h
    unfold rfindAux at h
    by_cases hp : isPrefixB sub (s.drop (k + 1)) = true
    · simp [hp] at h
      subst h
      exact ⟨le_rfl, hp⟩
    · simp [hp] at h
      obtain ⟨h1, h2⟩ := ih j h
      exact ⟨by omega, h2⟩

theorem rfindAux_ge {sub s : List Char} :
    ∀ k i, i ≤ k → isPrefixB sub (s.drop i) = true →
      ∃ j, rfindAux sub s k = some j ∧ i ≤ j := by
  intro k
  induction k with
  | zero =>
    intro i hi hp
    have hi0 : i = 0 := by omega
    subst hi0
    refine ⟨0, ?_, le_rfl⟩
    unfold rfindAux
    simp only [List.drop_zero] at hp
    simp [hp]
  | succ k ih =>
    intro i hi hp
    by_cases hq : isPrefixB sub (s.drop (k + 1)) = true
    · refine ⟨k + 1, ?_, hi⟩
      unfold rfindAux
      simp [hq]
    · have hne : i ≠ k + 1 := by
        intro he
        exact hq (he ▸ hp)
      obtain ⟨j, hj, hij⟩ := ih i (by omega) hp
      refine ⟨j, ?_, hij⟩
      unfold rfindAux
      simp [hq, hj]

/-- `str.rfind` of a suffix finds exactly the suffix position. -/
theorem rfindL_suffix {sub s : List Char} (p : List Char) (hs : s = p ++ sub) :
    rfindL sub s = some p.length := by
  have hocc : isPrefixB sub (s.drop p.length) = true := by
    rw [hs, List.drop_left]
    exact (isPrefixB_iff sub sub).2 ⟨[], by simp⟩
  have hlen : p.length ≤ s.length := by
    rw [hs]; simp
  obtain ⟨j, hj, hge⟩ := rfindAux_ge s.length p.length hlen hocc
  obtain ⟨hle, hpre⟩ := rfindAux_le s.length j hj
  have hsub : sub.length ≤ s.length - j := by
    have := isPrefixB_length hpre
    simpa using this
  have hslen : s.length = p.length + sub.length := by
    rw [hs]; simp
  have : j = p.length := by omega
  subst this
  exact hj

/-! ### ASCII lowering preserves the alphabetic class -/

theorem pyLower_alpha (c : Char) : isAlphaB (pyLower c) = isAlphaB c := by
  unfold pyLower
  split <;> rfl

theorem pyLowerL_length (l : List Char) : (pyLowerL l).length = l.length :=
  List.length_map l pyLower

theorem pyLowerL_append (a b : List Char) :
    pyLowerL (a ++ b) = pyLowerL a ++ pyLowerL b :=
  List.map_append pyLower a b

theorem pyLowerL_drop (l : List Char) (n : Nat) :
    pyLowerL (l.drop n) = (pyLowerL l).drop n :=
  List.map_drop pyLower l n

theorem alpha_of_pyLowerL_alpha {l : List Char} {c : Char}
    (hall : ∀ d ∈ pyLowerL l, isAlphaB d = true) (hc : c ∈ l) :
    isAlphaB c = true := by
  have : pyLower c ∈ pyLowerL l := List.mem_map_of_mem pyLower hc
  have h2 := hall _ this
  rwa [pyLower_alpha] at h2

theorem pyLowerL_alpha_of_alpha {l : List Char}
    (hall : ∀ d ∈ l, isAlphaB d = true) :
    ∀ c ∈ pyLowerL l, isAlphaB c = true := by
  intro c hc
  obtain ⟨d, hd, rfl⟩ := List.mem_map.1 hc
  rw [pyLower_alpha]
  exact hall d hd

theorem pyLowerL_nonalpha_of_nonalpha {l : List Char}
    (hall : ∀ d ∈ l, isAlphaB d = false) :
    ∀ c ∈ pyLowerL l, isAlphaB c = false := by
  intro c hc
  obtain ⟨d, hd, rfl⟩ := List.mem_map.1 hc
  rw [pyLower_alpha]
  exact hall d hd

/-! ### Set-as-list lemmas -/

theorem mem_addSet {α : Type} [DecidableEq α] (acc : List α) (x y : α) :
    y ∈ addSet acc x ↔ y ∈ acc ∨ y = x := by
  unfold addSet
  split
  · rename_i h
    constructor
    · exact fun hy => Or.inl hy
    · rintro (hy | rfl)
      · exact hy
      · exact h
  · simp

/-! ### Decomposition of the last maximal alphabetic run -/

theorem alphaRunsAux_eq_nil {l : List Char} :
    ∀ {cur : List Char}, alphaRunsAux l cur = [] →
      (∀ c ∈ l, isAlphaB c = false) ∧ cur = [] := by
  induction l with
  | nil =>
    intro cur h
    unfold alphaRunsAux at h
    split at h
    · rename_i hc
      exact ⟨by simp, hc⟩
    · exact absurd h (by simp)
  | cons c rest ih =>
    intro cur h
    unfold alphaRunsAux at h
    split at h
    · rename_i hca
      obtain ⟨_, h2⟩ := ih h
      exact absurd h2 (by simp)
    · rename_i hca
      split at h
      · obtain ⟨h1, _⟩ := ih h
        refine ⟨?_, by assumption⟩
        intro d hd
        rcases List.mem_cons.1 hd with rfl | hd2
        · simpa using hca
        · exact h1 d hd2
      · exact absurd h (by simp)

theorem alphaRunsAux_getLast {l : List Char} :
    ∀ {cur run : List Char}, (∀ c ∈ cur, isAlphaB c = true) →
      (alphaRunsAux l cur).getLast? = some run →
      ∃ p suf, cur.reverse ++ l = p ++ run ++ suf ∧ run ≠ [] ∧
        (∀ c ∈ run, isAlphaB c = true) ∧ (∀ c ∈ suf, isAlphaB c = false) := by
  induction l with
  | nil =>
    intro cur run hcur h
    unfold alphaRunsAux at h
    split at h
    · simp at h
    · rename_i hc
      simp only [List.getLast?_singleton, Option.some.injEq] at h
      subst h
      refine ⟨[], [], by simp, by simpa using hc, ?_, by simp⟩
      intro c hc2
      exact hcur c (List.mem_reverse.1 hc2)
  | cons c rest ih =>
    intro cur run hcur h
    unfold alphaRunsAux at h
    split at h
    · rename_i hca
      have hcur2 : ∀ d ∈ c :: cur, isAlphaB d = true := by
        intro d hd
        rcases List.mem_cons.1 hd with rfl | hd2
        · exact hca
        · exact hcur d hd2
      obtain ⟨p, suf, hdec, h1, h2, h3⟩ := ih hcur2 h
      refine ⟨p, suf, ?_, h1, h2, h3⟩
      calc cur.reverse ++ c :: rest = (c :: cur).reverse ++ rest := by simp
        _ = p ++ run ++ suf := hdec
    · rename_i hca
      split at h
      · rename_i hcur0
        subst hcur0
        obtain ⟨p, suf, hdec, h1, h2, h3⟩ := ih (by simp) h
        simp only [List.reverse_nil, List.nil_append] at hdec ⊢
        exact ⟨c :: p, suf, by simp [hdec], h1, h2, h3⟩
      · rename_i hcur0
        cases hA : alphaRunsAux rest [] with
        | nil =>
          rw [hA] at h
          simp only [List.getLast?_singleton, Option.some.injEq] at h
          subst h
          have hrest := (alphaRunsAux_eq_nil hA).1
          refine ⟨[], c :: rest, by simp, by simpa using hcur0, ?_, ?_⟩
          · intro d hd
            exact hcur d (List.mem_reverse.1 hd)
          · intro d hd
            rcases List.mem_cons.1 hd with rfl | hd2
            · simpa using hca
            · exact hrest d hd2
        | cons r rs =>
          rw [hA] at h
          rw [List.getLast?_cons_cons] at h
          rw [← hA] at h
          obtain ⟨p, suf, hdec, h1, h2, h3⟩ := ih (by simp) h
          simp only [List.reverse_nil, List.nil_append] at hdec
          refine ⟨cur.reverse ++ c :: p, suf, ?_, h1, h2, h3⟩
          simp [hdec, List.append_assoc]

theorem alphaRuns_getLast {lp run : List Char}
    (h : (alphaRuns lp).getLast? = some run) :
    ∃ p suf, lp = p ++ run ++ suf ∧ run ≠ [] ∧
      (∀ c ∈ run, isAlphaB c = true) ∧ (∀ c ∈ suf, isAlphaB c = false) := by
  have := @alphaRunsAux_getLast lp [] run (by simp) h
  simpa using this

/-! ### Shape of a repaired local part

A repaired local part is a dot-free block followed by characters containing
no alphabetic character, so the substring `.com` cannot occur in it. -/

theorem cleanShape_nil : cleanShape ([] : List Char) :=
  ⟨[], [], rfl, by simp, by simp⟩

theorem cleanShape_tail {c : Char} {t : List Char} (h : cleanShape (c :: t)) :
    cleanShape t := by
  obtain ⟨u, v, he, hu, hv⟩ := h
  cases u with
  | nil =>
    simp only [List.nil_append] at he
    refine ⟨[], t, by simp, by simp, ?_⟩
    intro d hd
    exact hv d (he ▸ List.mem_cons_of_mem c hd)
  | cons a u2 =>
    simp only [List.cons_append, List.cons.injEq] at he
    refine ⟨u2, v, he.2, ?_, hv⟩
    intro hdot
    exact hu (List.mem_cons_of_mem a hdot)

theorem cleanShape_dropWhile (q : Char → Bool) :
    ∀ {l : List Char}, cleanShape l → cleanShape (l.dropWhile q) := by
  intro l
  induction l with
  | nil => intro h; simpa using h
  | cons c t ih =>
    intro h
    by_cases hq : q c = true
    · rw [List.dropWhile_cons_of_pos hq]
      exact ih (cleanShape_tail h)
    · rw [List.dropWhile_cons_of_neg (by simpa using hq)]
      exact h

theorem no_dotcom_of_cleanShape {r : List Char} (h : cleanShape r) :
    ∀ i, isPrefixB comL (r.drop i) = false := by
  obtain ⟨u, v, rfl, hu, hv⟩ := h
  intro i
  by_contra hcon
  have hpre : isPrefixB comL ((u ++ v).drop i) = true := by
    cases hb : isPrefixB comL ((u ++ v).drop i)
    · exact absurd hb hcon
    · rfl
  obtain ⟨t, ht⟩ := (isPrefixB_iff _ _).1 hpre
  have hcom : comL = ['.', 'c', 'o', 'm'] := rfl
  rw [List.drop_append_eq_append_drop, hcom] at ht
  cases hui : u.drop i with
  | nil =>
    rw [hui, List.nil_append] at ht
    have hc : 'c' ∈ v.drop (i - u.length) := by
      rw [ht]
      simp
    have := hv 'c' (List.mem_of_mem_drop hc)
    exact absurd this (by decide)
  | cons a u2 =>
    rw [hui] at ht
    simp only [List.cons_append, List.cons.injEq] at ht
    have ha : a ∈ u.drop i := by
      rw [hui]
      exact List.mem_cons_self a u2
    have : '.' ∈ u := ht.1 ▸ List.mem_of_mem_drop ha
    exact hu this

/-! ### The known-username repair (claim C2) -/

theorem isSuffixB_of_isSuffixB_of_le {a b s : List Char}
    (ha : isSuffixB a s = true) (hb : isSuffixB b s = true)
    (hab : a.length ≤ b.length) : isSuffixB a b = true := by
  obtain ⟨p, hs⟩ := (isSuffixB_iff a s).1 ha
  obtain ⟨q, hq⟩ := (isSuffixB_iff b s).1 hb
  rw [hs] at hq
  have hlen : p.length + a.length = q.length + b.length := by
    have := congrArg List.length hq
    simpa using this
  have hqp : q.length ≤ p.length := by omega
  have hb2 : b = p.drop q.length ++ a := by
    have h1 : (q ++ b).drop q.length = b := List.drop_left q b
    rw [← hq, List.drop_append_eq_append_drop] at h1
    have h0 : q.length - p.length = 0 := by omega
    rw [h0, List.drop_zero] at h1
    exact h1.symm
  exact (isSuffixB_iff a b).2 ⟨p.drop q.length, hb2⟩

/-- no known username is a strict suffix of another. -/
theorem knownUsernames_suffix_eq :
    ∀ u ∈ knownUsernames, ∀ v ∈ knownUsernames,
      isSuffixB u v = true → u = v := by decide

theorem knownUsernames_alpha :
    ∀ u ∈ knownUsernames, ∀ d ∈ u, isAlphaB d = true := by decide

/-- when the lowered local part ends with a known username, the repair keeps
exactly the suffix of that length (the code trims at `l_lower.rfind(uname)`,
and the rightmost occurrence of a suffix is the suffix itself). -/
theorem repairLocal_known {lp uname : List Char} (hmem : uname ∈ knownUsernames)
    (hsuf : isSuffixB uname (pyLowerL lp) = true) :
    repairLocal lp = lp.drop (lp.length - uname.length) ∧
      pyLowerL (repairLocal lp) = uname := by
  cases hf : knownUsernames.find? (fun u => isSuffixB u (pyLowerL lp)) with
  | none =>
    rw [List.find?_eq_none] at hf
    exact absurd hsuf (by simpa using hf uname hmem)
  | some u2 =>
    have hu2suf : isSuffixB u2 (pyLowerL lp) = true := by
      simpa using List.find?_some hf
    have hu2mem : u2 ∈ knownUsernames := List.mem_of_find?_eq_some hf
    have huniq : u2 = uname := by
      rcases Nat.le_total u2.length uname.length with hle | hle
      · exact knownUsernames_suffix_eq u2 hu2mem uname hmem
          (isSuffixB_of_isSuffixB_of_le hu2suf hsuf hle)
      · exact (knownUsernames_suffix_eq uname hmem u2 hu2mem
          (isSuffixB_of_isSuffixB_of_le hsuf hu2suf hle)).symm
    subst huniq
    obtain ⟨p, hp⟩ := (isSuffixB_iff u2 (pyLowerL lp)).1 hsuf
    have hr : rfindL u2 (pyLowerL lp) = some p.length := rfindL_suffix p hp
    have hplen : p.length = lp.length - u2.length := by
      have := congrArg List.length hp
      simp only [pyLowerL_length, List.length_append] at this
      omega
    have hrepair : repairLocal lp = lp.drop p.length := by
      unfold repairLocal
      rw [hf]
      show (match rfindL u2 (pyLowerL lp) with
        | some idx => lp.drop idx
        | none => lp) = lp.drop p.length
      rw [hr]
    refine ⟨by rw [hrepair, hplen], ?_⟩
    rw [hrepair, pyLowerL_drop, hp, List.drop_left]

/-! ### The alphabetic-run fallback -/

theorem getLast?_none_eq_nil {α : Type} : ∀ {l : List α}, l.getLast? = none → l = [] := by
  intro l
  induction l with
  | nil => intro _; rfl
  | cons a t ih =>
    intro h
    cases t with
    | nil => simp at h
    | cons b t2 =>
      rw [List.getLast?_cons_cons] at h
      exact absurd (ih h) (by simp)

/-- the `rfind` of the fallback lands exactly at the start of the last
maximal alphabetic run: no occurrence of the run can start to its right. -/
theorem rfindL_lastRun {lp p run suf : List Char} (hdec : lp = p ++ run ++ suf)
    (hne : run ≠ []) (hal : ∀ c ∈ run, isAlphaB c = true)
    (hnal : ∀ c ∈ suf, isAlphaB c = false) :
    rfindL (pyLowerL run) (pyLowerL lp) = some p.length := by
  have hlp : pyLowerL lp = pyLowerL p ++ (pyLowerL run ++ pyLowerL suf) := by
    rw [hdec, pyLowerL_append, pyLowerL_append, List.append_assoc]
  have hocc : isPrefixB (pyLowerL run) ((pyLowerL lp).drop p.length) = true := by
    rw [hlp, List.drop_left' (by simp [pyLowerL_length])]
    exact isPrefixB_self_append _ _
  have hplen : p.length ≤ (pyLowerL lp).length := by
    simp [pyLowerL_length, hdec]
  obtain ⟨j, hj, hge⟩ := rfindAux_ge (pyLowerL lp).length p.length hplen hocc
  obtain ⟨hle, hpre⟩ := rfindAux_le (pyLowerL lp).length j hj
  have hrl : ∀ c ∈ pyLowerL run, isAlphaB c = true := pyLowerL_alpha_of_alpha hal
  have hsl : ∀ c ∈ pyLowerL suf, isAlphaB c = false := pyLowerL_nonalpha_of_nonalpha hnal
  have hrlne : pyLowerL run ≠ [] := by
    cases hr0 : run with
    | nil => exact absurd hr0 hne
    | cons r0 rs => simp [hr0, pyLowerL]
  have hjle : j ≤ p.length := by
    by_contra hgt
    push_neg at hgt
    rw [hlp, List.drop_append_eq_append_drop] at hpre
    rw [List.drop_eq_nil_of_le (by simp [pyLowerL_length]; omega), List.nil_append,
      List.drop_append_eq_append_drop] at hpre
    set k := j - (pyLowerL p).length with hkdef
    have hk1 : 1 ≤ k := by simp only [hkdef, pyLowerL_length]; omega
    obtain ⟨t, ht⟩ := (isPrefixB_iff _ _).1 hpre
    by_cases hklen : (pyLowerL run).length ≤ k
    · rw [List.drop_eq_nil_of_le hklen, List.nil_append] at ht
      cases hrl0 : pyLowerL run with
      | nil => exact hrlne hrl0
      | cons r0 rs =>
        rw [hrl0] at ht
        have hr0mem : r0 ∈ (pyLowerL suf).drop (k - (r0 :: rs).length) := by
          rw [ht]
          exact List.mem_cons_self r0 (rs ++ t)
        have h1 : isAlphaB r0 = false := hsl r0 (List.mem_of_mem_drop hr0mem)
        have h2 : isAlphaB r0 = true := hrl r0 (by rw [hrl0]; exact List.mem_cons_self r0 rs)
        rw [h1] at h2
        exact absurd h2 (by simp)
    · push_neg at hklen
      have hk0 : k - (pyLowerL run).length = 0 := by omega
      rw [hk0, List.drop_zero] at ht
      have h2 := congrArg (List.take (pyLowerL run).length) ht
      rw [List.take_append_eq_append_take, List.take_left,
        List.take_of_length_le (by simp)] at h2
      have harith : (pyLowerL run).length - ((pyLowerL run).drop k).length = k := by
        simp
        omega
      rw [harith] at h2
      cases hsk : (pyLowerL suf).take k with
      | nil =>
        rw [hsk, List.append_nil] at h2
        have := congrArg List.length h2
        simp only [List.length_drop] at this
        omega
      | cons c cs =>
        rw [hsk] at h2
        have hcrl : c ∈ pyLowerL run := by
          rw [← h2]
          simp
        have hcsl : c ∈ pyLowerL suf :=
          List.mem_of_mem_take (by rw [hsk]; exact List.mem_cons_self c cs)
        have h1 : isAlphaB c = false := hsl c hcsl
        have h3 : isAlphaB c = true := hrl c hcrl
        rw [h1] at h3
        exact absurd h3 (by simp)
  have : j = p.length := by omega
  subst this
  exact hj

/-- every repaired local part has the clean shape. -/
theorem cleanShape_repairLocal (lp : List Char) : cleanShape (repairLocal lp) := by
  cases hf : knownUsernames.find? (fun u => isSuffixB u (pyLowerL lp)) with
  | some u2 =>
    have hu2suf : isSuffixB u2 (pyLowerL lp) = true := by
      simpa using List.find?_some hf
    have hu2mem : u2 ∈ knownUsernames := List.mem_of_find?_eq_some hf
    obtain ⟨_, hlow⟩ := repairLocal_known hu2mem hu2suf
    have h2 : ∀ d ∈ pyLowerL (repairLocal lp), isAlphaB d = true := by
      rw [hlow]
      exact knownUsernames_alpha u2 hu2mem
    have h3 : ∀ d ∈ repairLocal lp, isAlphaB d = true :=
      fun d hd => alpha_of_pyLowerL_alpha h2 hd
    refine ⟨repairLocal lp, [], by simp, ?_, by simp⟩
    intro hdot
    exact absurd (h3 '.' hdot) (by decide)
  | none =>
    cases hl : (alphaRuns lp).getLast? with
    | none =>
      have hnil : alphaRuns lp = [] := getLast?_none_eq_nil hl
      have hall := (@alphaRunsAux_eq_nil lp [] hnil).1
      have hrepair : repairLocal lp = lp := by
        unfold repairLocal
        rw [hf, hl]
      rw [hrepair]
      exact ⟨[], lp, by simp, by simp, hall⟩
    | some run =>
      obtain ⟨p, suf, hdec, hne, hal, hnal⟩ := alphaRuns_getLast hl
      have hr := rfindL_lastRun hdec hne hal hnal
      have hrepair : repairLocal lp = run ++ suf := by
        unfold repairLocal
        rw [hf, hl]
        show (match rfindL (pyLowerL run) (pyLowerL lp) with
          | some idx => lp.drop idx
          | none => lp) = run ++ suf
        rw [hr]
        show lp.drop p.length = run ++ suf
        rw [hdec, List.append_assoc, List.drop_left]
      rw [hrepair]
      refine ⟨run, suf, rfl, ?_, hnal⟩
      intro hdot
      exact absurd (hal '.' hdot) (by decide)

theorem cleanShape_finalLocal (lp : List Char) : cleanShape (finalLocal lp) :=
  cleanShape_dropWhile _ (cleanShape_repairLocal lp)

/-! ### Structure of the candidates produced by `extract_emails` -/

theorem mem_of_mem_repairLocal {lp : List Char} {c : Char}
    (h : c ∈ repairLocal lp) : c ∈ lp := by
  unfold repairLocal at h
  split at h
  · split at h
    · exact List.mem_of_mem_drop h
    · exact h
  · split at h
    · split at h
      · exact List.mem_of_mem_drop h
      · exact h
    · exact h

theorem mem_of_mem_finalLocal {lp : List Char} {c : Char}
    (h : c ∈ finalLocal lp) : c ∈ lp :=
  mem_of_mem_repairLocal ((List.dropWhile_sublist _).mem h)

theorem candidateFor_structure {text : List Char} {m : Nat × Nat} {e : List Char}
    (h : candidateFor text m = some e) :
    ∃ loc dom, e = loc ++ '@' :: dom ∧ loc ≠ [] ∧ cleanShape loc ∧
      ∀ c ∈ loc, isLocalChar c = true := by
  simp only [candidateFor] at h
  split at h
  · split at h
    · exact absurd h (by simp)
    · split at h
      · exact absurd h (by simp)
      · rename_i hloc
        simp only [Option.some.injEq] at h
        refine ⟨_, _, h.symm, hloc, cleanShape_finalLocal _, ?_⟩
        intro c hc
        have h2 := mem_of_mem_finalLocal hc
        have h3 := List.mem_reverse.1 h2
        have := List.mem_takeWhile_imp h3
        simpa using this
  · exact absurd h (by simp)

theorem extract_fold_mem {text : List Char} :
    ∀ (L : List (Nat × Nat)) (acc : List (List Char)) (e : List Char),
      e ∈ L.foldl
        (fun acc m =>
          match candidateFor text m with
          | some x => addSet acc x
          | none => acc) acc →
      e ∈ acc ∨ ∃ m, candidateFor text m = some e := by
  intro L
  induction L with
  | nil =>
    intro acc e h
    exact Or.inl h
  | cons m L ih =>
    intro acc e h
    rw [List.foldl_cons] at h
    cases hc : candidateFor text m with
    | none =>
      rw [hc] at h
      exact ih acc e h
    | some x =>
      rw [hc] at h
      rcases ih (addSet acc x) e h with h2 | h2
      · rcases (mem_addSet acc x e).1 h2 with h3 | rfl
        · exact Or.inl h3
        · exact Or.inr ⟨m, hc⟩
      · exact Or.inr h2

theorem mem_extract_emails_structure {text e : List Char}
    (h : e ∈ extract_emails text) :
    ∃ loc dom, e = loc ++ '@' :: dom ∧ loc ≠ [] ∧ cleanShape loc ∧
      ∀ c ∈ loc, isLocalChar c = true := by
  rcases extract_fold_mem (findMatches text) [] e h with h2 | ⟨m, hm⟩
  · simp at h2
  · exact candidateFor_structure hm

theorem at_mem_of_mem_extract {text e : List Char} (h : e ∈ extract_emails text) :
    '@' ∈ e := by
  obtain ⟨loc, dom, rfl, _, _, _⟩ := mem_extract_emails_structure h
  exact List.mem_append_right loc (List.mem_cons_self '@' dom)

/-! ### The post-pass preserves the `@` -/

theorem isPrefixB_append_left {p a b : List Char}
    (h : isPrefixB p (a ++ b) = true) (hlen : p.length ≤ a.length) :
    isPrefixB p a = true := by
  obtain ⟨t, ht⟩ := (isPrefixB_iff _ _).1 h
  have h2 := congrArg (List.take p.length) ht
  rw [List.take_append_eq_append_take, List.take_left] at h2
  have h0 : p.length - a.length = 0 := by omega
  rw [h0, List.take_zero, List.append_nil] at h2
  refine (isPrefixB_iff p a).2 ⟨a.drop p.length, ?_⟩
  conv_lhs => rw [← List.take_append_drop p.length a]
  rw [h2]

/-- truncating at the first `.com` of a candidate `local@domain` with a
clean-shaped local part keeps the `@`: the first occurrence of `.com` lies
strictly beyond the local part. -/
theorem at_mem_cleanupEmail {loc dom : List Char} (hcs : cleanShape loc) :
    '@' ∈ cleanupEmail (loc ++ '@' :: dom) := by
  unfold cleanupEmail
  split
  · cases hfind : ffind comL (loc ++ '@' :: dom) with
    | none =>
      simp only [hfind]
      exact List.mem_append_right loc (List.mem_cons_self '@' dom)
    | some i =>
      simp only [hfind]
      obtain ⟨hpre, _⟩ := ffind_spec hfind
      have hgt : loc.length < i := by
        by_contra hle2
        push_neg at hle2
        rw [List.drop_append_eq_append_drop] at hpre
        have h0 : i - loc.length = 0 := by omega
        rw [h0, List.drop_zero] at hpre
        by_cases hcase : i + 4 ≤ loc.length
        · have hsplit : isPrefixB comL (loc.drop i) = true :=
            isPrefixB_append_left hpre (by simp [comL]; omega)
          have := no_dotcom_of_cleanShape hcs i
          rw [this] at hsplit
          exact absurd hsplit (by simp)
        · push_neg at hcase
          obtain ⟨t, ht⟩ := (isPrefixB_iff _ _).1 hpre
          have hcom : comL = ['.', 'c', 'o', 'm'] := rfl
          rw [hcom] at ht
          have hd1 : ((loc.drop i).length + 1) - (loc.drop i).length = 1 := by omega
          have h1 : '@' ∈ (loc.drop i ++ '@' :: dom).take ((loc.drop i).length + 1) := by
            rw [List.take_append_eq_append_take, hd1,
              List.take_of_length_le (Nat.le_succ _)]
            exact List.mem_append_right _ (by simp)
          rw [ht] at h1
          have hmin : (loc.drop i).length + 1 = min ((loc.drop i).length + 1) 4 := by
            simp only [List.length_drop]
            omega
          rw [hmin, ← List.take_take] at h1
          have h2 := List.mem_of_mem_take h1
          have h3 : (['.', 'c', 'o', 'm'] ++ t).take 4 = ['.', 'c', 'o', 'm'] := rfl
          rw [h3] at h2
          exact absurd h2 (by decide)
      rw [List.take_append_eq_append_take,
        List.take_of_length_le (by omega : loc.length ≤ i + 4)]
      have h4 : i + 4 - loc.length = (i + 3 - loc.length) + 1 := by omega
      rw [h4, List.take_succ_cons]
      exact List.mem_append_right _ (List.mem_cons_self _ _)
  · exact List.mem_append_right loc (List.mem_cons_self '@' dom)

theorem pipeline_fold_mem :
    ∀ (L : List (List Char)) (acc : List (List Char)) (e : List Char),
      e ∈ L.foldl (fun acc x => addSet acc (cleanupEmail x)) acc →
      e ∈ acc ∨ ∃ x ∈ L, cleanupEmail x = e := by
  intro L
  induction L with
  | nil =>
    intro acc e h
    exact Or.inl h
  | cons x L ih =>
    intro acc e h
    rw [List.foldl_cons] at h
    rcases ih (addSet acc (cleanupEmail x)) e h with h2 | ⟨y, hy, he⟩
    · rcases (mem_addSet acc (cleanupEmail x) e).1 h2 with h3 | rfl
      · exact Or.inl h3
      · exact Or.inr ⟨x, List.mem_cons_self x L, rfl⟩
    · exact Or.inr ⟨y, List.mem_cons_of_mem x hy, he⟩

/-- every email reported by the per-page pipeline contains an `@`. -/
theorem at_mem_pipelineEmails {text e : List Char} (h : e ∈ pipelineEmails text) :
    '@' ∈ e := by
  rcases pipeline_fold_mem (extract_emails text) [] e h with h2 | ⟨x, hx, he⟩
  · simp at h2
  · obtain ⟨loc, dom, rfl, _, hcs, _⟩ := mem_extract_emails_structure hx
    rw [← he]
    exact at_mem_cleanupEmail hcs

/-! ### Frontier admission lemmas -/

theorem enqueue_appends {m : Nat} {visited front : List Url} (u : Url)
    (h : visited.length + front.length < m + 1) :
    enqueue m visited front u = front ++ [u] := by
  unfold enqueue
  rw [if_pos h]

theorem enqueue_length_le {m : Nat} {visited front : List Url} (u : Url)
    (h : visited.length + front.length ≤ m + 1) :
    visited.length + (enqueue m visited front u).length ≤ m + 1 := by
  unfold enqueue
  split
  · rename_i hlt
    simp only [List.length_append, List.length_cons, List.length_nil]
    omega
  · exact h

theorem enqueueAll_length_le {m : Nat} (visited links : List Url) :
    ∀ front : List Url, visited.length + front.length ≤ m + 1 →
      visited.length + (enqueueAll m visited front links).length ≤ m + 1 := by
  induction links with
  | nil =>
    intro front h
    simpa [enqueueAll] using h
  | cons l L ih =>
    intro front h
    have h2 := ih (enqueue m visited front l) (enqueue_length_le l h)
    simpa [enqueueAll, List.foldl_cons] using h2

theorem enqueue_saturated {m : Nat} {visited front : List Url} (u : Url)
    (h : m + 1 ≤ visited.length + front.length) :
    enqueue m visited front u = front := by
  unfold enqueue
  rw [if_neg]
  omega

theorem enqueueAll_saturated {m : Nat} {visited : List Url} (links : List Url)
    {front : List Url} (h : m + 1 ≤ visited.length + front.length) :
    enqueueAll m visited front links = front := by
  induction links with
  | nil => rfl
  | cons l L ih =>
    unfold enqueueAll at ih ⊢
    rw [List.foldl_cons, enqueue_saturated l h]
    exact ih

/-! ### The crawl invariant -/

theorem crawlInv_init (m : Nat) (s : Url) : CrawlInv m (initState s) := by
  unfold CrawlInv initState
  refine ⟨?_, by simp, by simp, by simp, by simp, by simp⟩
  simp

/-! field equations of `processPage` (all definitional) -/

theorem processPage_visited (env : WebEnv Url) (b : List Char) (m : Nat)
    (url : Url) (pg : Page) (st : CrawlState Url) :
    (processPage env b m url pg st).visited = st.visited := rfl

theorem processPage_fetched (env : WebEnv Url) (b : List Char) (m : Nat)
    (url : Url) (pg : Page) (st : CrawlState Url) :
    (processPage env b m url pg st).fetched = st.fetched := rfl

theorem processPage_errors (env : WebEnv Url) (b : List Char) (m : Nat)
    (url : Url) (pg : Page) (st : CrawlState Url) :
    (processPage env b m url pg st).errors = st.errors := rfl

theorem processPage_linksScraped (env : WebEnv Url) (b : List Char) (m : Nat)
    (url : Url) (pg : Page) (st : CrawlState Url) :
    (processPage env b m url pg st).linksScraped = st.linksScraped + 1 := rfl

theorem processPage_toScrape (env : WebEnv Url) (b : List Char) (m : Nat)
    (url : Url) (pg : Page) (st : CrawlState Url) :
    (processPage env b m url pg st).toScrape =
      enqueueAll m st.visited
        (enqueueAll m st.visited st.toScrape (classifyLinks env b url pg.anchors).1)
        (classifyLinks env b url pg.anchors).2 := rfl

theorem crawlStep_inv {env : WebEnv Url} {b : List Char} {m : Nat}
    {st : CrawlState Url} (hcond : st.linksScraped < m)
    (hinv : CrawlInv m st) : CrawlInv m (crawlStep env b m st) := by
  obtain ⟨h1, h2, h3, h4, h5, h6⟩ := hinv
  unfold crawlStep
  split
  · exact ⟨h1, h2, h3, h4, h5, h6⟩
  · rename_i u rest hts
    rw [hts] at h1
    simp only [List.length_cons] at h1
    split
    · rename_i hmem
      exact ⟨by simp; omega, h2, h3, h4, h5, h6⟩
    · rename_i hmem
      have hvn : (st.visited ++ [u]).Nodup := by
        rw [List.nodup_append]
        refine ⟨h4, List.nodup_singleton u, ?_⟩
        intro a ha hb
        rw [List.mem_singleton] at hb
        subst hb
        exact hmem ha
      have hufet : u ∉ st.fetched := fun hu => hmem (h6 u hu)
      have hfn : (st.fetched ++ [u]).Nodup := by
        rw [List.nodup_append]
        refine ⟨h5, List.nodup_singleton u, ?_⟩
        intro a ha hb
        rw [List.mem_singleton] at hb
        subst hb
        exact hufet ha
      have hsub : ∀ w ∈ st.fetched ++ [u], w ∈ st.visited ++ [u] := by
        intro w hw
        rcases List.mem_append.1 hw with hw2 | hw2
        · exact List.mem_append_left _ (h6 w hw2)
        · exact List.mem_append_right _ hw2
      split
      · refine ⟨by simp; omega, by simp; omega, h3, hvn, hfn, hsub⟩
      · rename_i pg hpg
        refine ⟨?_, ?_, ?_, hvn, hfn, hsub⟩
        · have hb2 : (st.visited ++ [u]).length + rest.length ≤ m + 1 := by
            simp only [List.length_append, List.length_cons, List.length_nil]
            omega
          have h7 := enqueueAll_length_le (st.visited ++ [u])
            (classifyLinks env b u pg.anchors).2
            (enqueueAll m (st.visited ++ [u]) rest (classifyLinks env b u pg.anchors).1)
            (enqueueAll_length_le (st.visited ++ [u])
              (classifyLinks env b u pg.anchors).1 rest hb2)
          simpa only [processPage_visited, processPage_toScrape] using h7
        · simp only [processPage_visited, processPage_linksScraped, processPage_errors,
            List.length_append, List.length_cons, List.length_nil]
          omega
        · simp only [processPage_linksScraped]
          omega

theorem crawlLoop_inv {env : WebEnv Url} {b : List Char} {m : Nat} :
    ∀ (fuel : Nat) (st : CrawlState Url),
      CrawlInv m st → CrawlInv m (crawlLoop env b m fuel st) := by
  intro fuel
  induction fuel with
  | zero => intro st h; exact h
  | succ f ih =>
    intro st h
    unfold crawlLoop
    split
    · exact h
    · rename_i hcond
      push_neg at hcond
      exact ih _ (crawlStep_inv hcond.2 h)

theorem scrape_inv (env : WebEnv Url) (s : Url) (m fuel : Nat) :
    CrawlInv m (scrape_emails_and_pos_from_website env s m fuel) :=
  crawlLoop_inv fuel _ (crawlInv_init m s)

/-! ### Loop unfolding and step characterizations -/

theorem crawlLoop_done {env : WebEnv Url} {b : List Char} {m fuel : Nat}
    {st : CrawlState Url} (h : st.toScrape = [] ∨ m ≤ st.linksScraped) :
    crawlLoop env b m fuel st = st := by
  cases fuel with
  | zero => rfl
  | succ f =>
    unfold crawlLoop
    rw [if_pos h]

theorem crawlLoop_succ {env : WebEnv Url} {b : List Char} {m f : Nat}
    {st : CrawlState Url} (h : ¬(st.toScrape = [] ∨ m ≤ st.linksScraped)) :
    crawlLoop env b m (f + 1) st = crawlLoop env b m f (crawlStep env b m st) := by
  conv_lhs => rw [crawlLoop]
  rw [if_neg h]

theorem crawlStep_skip {env : WebEnv Url} {b : List Char} {m : Nat}
    {st : CrawlState Url} {u : Url} {rest : List Url}
    (h1 : st.toScrape = u :: rest) (h2 : u ∈ st.visited) :
    crawlStep env b m st = { st with toScrape := rest } := by
  unfold crawlStep
  rw [h1]
  show (if u ∈ st.visited then { st with toScrape := rest }
    else match env.fetch u with
      | none =>
        { st with toScrape := rest, visited := st.visited ++ [u],
                  fetched := st.fetched ++ [u], errors := st.errors + 1 }
      | some pg =>
        processPage env b m u pg
          { st with toScrape := rest, visited := st.visited ++ [u],
                    fetched := st.fetched ++ [u] }) = { st with toScrape := rest }
  rw [if_pos h2]

theorem crawlStep_fail {env : WebEnv Url} {b : List Char} {m : Nat}
    {st : CrawlState Url} {u : Url} {rest : List Url}
    (h1 : st.toScrape = u :: rest) (h2 : u ∉ st.visited)
    (h3 : env.fetch u = none) :
    crawlStep env b m st =
      { st with toScrape := rest, visited := st.visited ++ [u],
                fetched := st.fetched ++ [u], errors := st.errors + 1 } := by
  unfold crawlStep
  rw [h1]
  show (if u ∈ st.visited then { st with toScrape := rest }
    else match env.fetch u with
      | none =>
        { st with toScrape := rest, visited := st.visited ++ [u],
                  fetched := st.fetched ++ [u], errors := st.errors + 1 }
      | some pg =>
        processPage env b m u pg
          { st with toScrape := rest, visited := st.visited ++ [u],
                    fetched := st.fetched ++ [u] }) = _
  rw [if_neg h2, h3]

theorem crawlStep_success {env : WebEnv Url} {b : List Char} {m : Nat}
    {st : CrawlState Url} {u : Url} {rest : List Url} {pg : Page}
    (h1 : st.toScrape = u :: rest) (h2 : u ∉ st.visited)
    (h3 : env.fetch u = some pg) :
    crawlStep env b m st =
      processPage env b m u pg
        { st with toScrape := rest, visited := st.visited ++ [u],
                  fetched := st.fetched ++ [u] } := by
  unfold crawlStep
  rw [h1]
  show (if u ∈ st.visited then { st with toScrape := rest }
    else match env.fetch u with
      | none =>
        { st with toScrape := rest, visited := st.visited ++ [u],
                  fetched := st.fetched ++ [u], errors := st.errors + 1 }
      | some pg =>
        processPage env b m u pg
          { st with toScrape := rest, visited := st.visited ++ [u],
                    fetched := st.fetched ++ [u] }) = _
  rw [if_neg h2, h3]

/-! ### First-wins preservation of the reservation platform -/

theorem processPage_resPlatform_ne {env : WebEnv Url} {b : List Char} {m : Nat}
    {url : Url} {pg : Page} {st : CrawlState Url} (h : st.resPlatform ≠ []) :
    (processPage env b m url pg st).resPlatform = st.resPlatform := by
  show (if st.resPlatform = [] then
      let p := detect_reservation_platform pg.html
      if p ≠ [] then p else st.resPlatform
    else st.resPlatform) = st.resPlatform
  rw [if_neg h]

theorem crawlStep_resPlatform_ne (env : WebEnv Url) (b : List Char) (m : Nat)
    {st : CrawlState Url} (h : st.resPlatform ≠ []) :
    (crawlStep env b m st).resPlatform = st.resPlatform := by
  unfold crawlStep
  split
  · rfl
  · split
    · rfl
    · split
      · rfl
      · exact processPage_resPlatform_ne h

theorem crawlLoop_resPlatform_ne {env : WebEnv Url} {b : List Char} {m : Nat} :
    ∀ (fuel : Nat) (st : CrawlState Url), st.resPlatform ≠ [] →
      (crawlLoop env b m fuel st).resPlatform = st.resPlatform := by
  intro fuel
  induction fuel with
  | zero => intro st h; rfl
  | succ f ih =>
    intro st h
    unfold crawlLoop
    split
    · rfl
    · have hstep := crawlStep_resPlatform_ne env b m h
      rw [ih _ (by rw [hstep]; exact h), hstep]

theorem processPage_toScrape_saturated {env : WebEnv Url} {b : List Char}
    {m : Nat} {url : Url} {pg : Page} {st : CrawlState Url}
    (h : m + 1 ≤ st.visited.length + st.toScrape.length) :
    (processPage env b m url pg st).toScrape = st.toScrape := by
  rw [processPage_toScrape, enqueueAll_saturated _ h, enqueueAll_saturated _ h]

/-- a successful fetch popped from a frontier already at the admission cap
adds nothing to the frontier: the guard rejects every discovered link. -/
theorem crawlStep_success_saturated {env : WebEnv Url} {b : List Char} {m : Nat}
    {st : CrawlState Url} {u : Url} {rest : List Url} {pg : Page}
    (h1 : st.toScrape = u :: rest) (h2 : u ∉ st.visited)
    (h3 : env.fetch u = some pg)
    (h4 : m + 1 ≤ st.visited.length + st.toScrape.length) :
    (crawlStep env b m st).toScrape = rest ∧
    (crawlStep env b m st).visited = st.visited ++ [u] ∧
    (crawlStep env b m st).fetched = st.fetched ++ [u] ∧
    (crawlStep env b m st).linksScraped = st.linksScraped + 1 := by
  rw [crawlStep_success h1 h2 h3]
  have h5 : m + 1 ≤ (st.visited ++ [u]).length + rest.length := by
    rw [h1] at h4
    simp only [List.length_append, List.length_cons, List.length_nil] at h4 ⊢
    omega
  exact ⟨processPage_toScrape_saturated h5, processPage_visited _ _ _ _ _ _,
    processPage_fetched _ _ _ _ _ _, processPage_linksScraped _ _ _ _ _ _⟩

/-! ## The claims -/

/-- C1 (counterexample): on `"reach bob.smith123@place.co.uk"` the pipeline
does not produce `"smith@place.co.uk"`: the fallback trims the local part to
start at the last alphabetic run but keeps the digits after it. -/
theorem claim1_counterexample :
    (pipelineEmails c1text).contains "smith@place.co.uk".toList = false := by
  decide

/-- C1 (amended): for the input text `"reach bob.smith123@place.co.uk"`,
contact extraction plus the crawl's post-pass yields exactly the set
`{"smith123@place.co.uk"}`: with no known-username suffix match, the
alphabetic-run fallback trims the raw local part `"bob.smith123"` to start at
the last maximal alphabetic run, dropping the earlier segments but keeping
the digits that follow the run. -/
theorem claim1_amended :
    pipelineEmails c1text = ["smith123@place.co.uk".toList] := by
  decide

/-- C2: every raw local part whose lowercase form ends with a known username
(`info`, `contact`, `reservations`, `sales`, `support`, `admin`) is trimmed
to exactly that suffix, discarding any glued prefix; in particular the text
`"Email us at homeinfo@restaurant.com for bookings"` yields exactly
`{"info@restaurant.com"}`. -/
theorem claim2_known_username_suffix :
    (∀ lp uname : List Char, uname ∈ knownUsernames →
        isSuffixB uname (pyLowerL lp) = true →
        repairLocal lp = lp.drop (lp.length - uname.length) ∧
          pyLowerL (repairLocal lp) = uname) ∧
    pipelineEmails c2text = ["info@restaurant.com".toList] := by
  constructor
  · intro lp uname h1 h2
    exact repairLocal_known h1 h2
  · decide

theorem claim2_witness :
    repairLocal "homeinfo".toList =
      "homeinfo".toList.drop ("homeinfo".toList.length - "info".toList.length) :=
  (claim2_known_username_suffix.1 "homeinfo".toList "info".toList
    (by decide) (by decide)).1

/-- C3: every candidate produced by extraction contains an `@`; the per-page
post-pass truncates a candidate containing `.com` right after the first
occurrence of `.com` (the reported index is an occurrence and no earlier
index is), and leaves a candidate without `.com` unchanged. -/
theorem claim3_postpass :
    ∀ text e : List Char, e ∈ extract_emails text →
      '@' ∈ e ∧
      (∀ i, ffind comL e = some i →
        isPrefixB comL (e.drop i) = true ∧
        (∀ k < i, isPrefixB comL (e.drop k) = false) ∧
        cleanupEmail e = e.take (i + 4)) ∧
      (ffind comL e = none → cleanupEmail e = e) := by
  intro text e he
  have hat := at_mem_of_mem_extract he
  refine ⟨hat, ?_, ?_⟩
  · intro i hi
    obtain ⟨h1, h2⟩ := ffind_spec hi
    refine ⟨h1, h2, ?_⟩
    unfold cleanupEmail
    rw [if_pos ⟨hat, by rw [hi]; rfl⟩, hi]
  · intro hnone
    unfold cleanupEmail
    rw [if_neg]
    rintro ⟨_, hsome⟩
    rw [hnone] at hsome
    exact absurd hsome (by simp)

theorem claim3_witness :
    cleanupEmail "a@b.com".toList = "a@b.com".toList.take 7 :=
  ((claim3_postpass c3text "a@b.com".toList (by decide)).2.1 3 (by decide)).2.2

/-- C4: the reservation-platform triggers are evaluated Resy first, then
OpenTable, then Tock, first match winning within a page; a non-empty platform
is never overwritten by a later page; and on the two-page site whose first
page contains `Resy` and whose second contains `OpenTable`, the crawl ends
with platform `Resy` having visited both pages. -/
theorem claim4_reservation_first_wins :
    (∀ html : List Char,
        (containsSubB "id=\"resy_button_container\"".toList html = true ∨
          containsSubB "widgets.resy.com".toList html = true ∨
          containsSubB "resy.com".toList html = true ∨
          containsSubB "Resy".toList html = true) →
        detect_reservation_platform html = "Resy".toList) ∧
    (∀ html : List Char,
        containsSubB "id=\"resy_button_container\"".toList html = false →
        containsSubB "widgets.resy.com".toList html = false →
        containsSubB "resy.com".toList html = false →
        containsSubB "Resy".toList html = false →
        (containsSubB "OpenTable".toList html = true ∨
          containsSubB "opentable.com".toList html = true) →
        detect_reservation_platform html = "OpenTable".toList) ∧
    (∀ html : List Char,
        containsSubB "id=\"resy_button_container\"".toList html = false →
        containsSubB "widgets.resy.com".toList html = false →
        containsSubB "resy.com".toList html = false →
        containsSubB "Resy".toList html = false →
        containsSubB "OpenTable".toList html = false →
        containsSubB "opentable.com".toList html = false →
        (containsSubB "Tock".toList html = true ∨
          containsSubB "exploretock.com".toList html = true) →
        detect_reservation_platform html = "Tock".toList) ∧
    (∀ (env : WebEnv Url) (b : List Char) (m fuel : Nat) (st : CrawlState Url),
        st.resPlatform ≠ [] →
        (crawlLoop env b m fuel st).resPlatform = st.resPlatform) ∧
    ((scrape_emails_and_pos_from_website envResy "p0".toList 10 5).resPlatform =
        "Resy".toList ∧
      (scrape_emails_and_pos_from_website envResy "p0".toList 10 5).fetched =
        ["p0".toList, "p1".toList]) := by
  refine ⟨?_, ?_, ?_, fun env b m fuel st h => crawlLoop_resPlatform_ne fuel st h,
    by decide, by decide⟩
  · intro html h
    unfold detect_reservation_platform
    rw [if_pos]
    rcases h with h | h | h | h <;> simp_all
  · intro html h1 h2 h3 h4 h5
    unfold detect_reservation_platform
    rw [if_neg (by simp_all), if_pos]
    rcases h5 with h | h <;> simp_all
  · intro html h1 h2 h3 h4 h5 h6 h7
    unfold detect_reservation_platform
    rw [if_neg (by simp_all), if_neg (by simp_all), if_pos]
    rcases h7 with h | h <;> simp_all

theorem claim4_witness :
    detect_reservation_platform "xx Resy xx".toList = "Resy".toList ∧
    detect_reservation_platform "zz OpenTable zz".toList = "OpenTable".toList :=
  ⟨(@claim4_reservation_first_wins (List Char) _).1 "xx Resy xx".toList
      (Or.inr (Or.inr (Or.inr (by decide)))),
    (@claim4_reservation_first_wins (List Char) _).2.1 "zz OpenTable zz".toList
      (by decide) (by decide) (by decide) (by decide) (Or.inl (by decide))⟩

/-- C5: each frontier append is guarded by
`len(visited) + len(to_scrape) < max_links + 1`, so the sum never exceeds
`maxPages + 1` after an enqueue, through a whole admission batch, and in
every state a crawl reaches. -/
theorem claim5_admission_cap :
    (∀ (m : Nat) (visited front : List Url) (u : Url),
        visited.length + front.length ≤ m + 1 →
        visited.length + (enqueue m visited front u).length ≤ m + 1) ∧
    (∀ (m : Nat) (visited front links : List Url),
        visited.length + front.length ≤ m + 1 →
        visited.length + (enqueueAll m visited front links).length ≤ m + 1) ∧
    ∀ (env : WebEnv Url) (s : Url) (m fuel : Nat),
      (scrape_emails_and_pos_from_website env s m fuel).visited.length +
        (scrape_emails_and_pos_from_website env s m fuel).toScrape.length ≤ m + 1 :=
  ⟨fun _ _ _ u h => enqueue_length_le u h,
    fun _ v f L h => enqueueAll_length_le v L f h,
    fun env s m fuel => (scrape_inv env s m fuel).1⟩

theorem claim5_witness :
    (["a".toList] : List (List Char)).length +
      (enqueue 9 ["a".toList] ([] : List (List Char)) "b".toList).length ≤ 10 :=
  (@claim5_admission_cap (List Char) _).1 9 ["a".toList] [] "b".toList
    (by decide)

/-- C6: in every state a crawl reaches (in particular at completion), the
number of successfully fetched pages is at most `maxPages`, and the size of
the visited set is at most successes plus fetch errors (it equals that sum). -/
theorem claim6_budget :
    ∀ (env : WebEnv Url) (s : Url) (m fuel : Nat),
      (scrape_emails_and_pos_from_website env s m fuel).linksScraped ≤ m ∧
      (scrape_emails_and_pos_from_website env s m fuel).visited.length ≤
        (scrape_emails_and_pos_from_website env s m fuel).linksScraped +
          (scrape_emails_and_pos_from_website env s m fuel).errors := by
  intro env s m fuel
  obtain ⟨_, h2, h3, _, _, _⟩ := scrape_inv env s m fuel
  exact ⟨h3, le_of_eq h2⟩

/-- C7: a dequeued unvisited URL whose fetch fails is recorded in the visited
set in the very step that attempts the fetch, the success counter and the
frontier tail are untouched, nothing is re-enqueued, the loop goes on, and
no URL is ever fetched twice (every fetched URL stays visited). -/
theorem claim7_visited_before_fetch :
    (∀ (env : WebEnv Url) (b : List Char) (m : Nat) (st : CrawlState Url)
        (u : Url) (rest : List Url),
        st.toScrape = u :: rest → u ∉ st.visited → env.fetch u = none →
        crawlStep env b m st =
          { st with toScrape := rest, visited := st.visited ++ [u],
                    fetched := st.fetched ++ [u], errors := st.errors + 1 }) ∧
    (∀ (env : WebEnv Url) (b : List Char) (m fuel : Nat) (st : CrawlState Url),
        ¬(st.toScrape = [] ∨ m ≤ st.linksScraped) →
        crawlLoop env b m (fuel + 1) st =
          crawlLoop env b m fuel (crawlStep env b m st)) ∧
    ∀ (env : WebEnv Url) (s : Url) (m fuel : Nat),
      (scrape_emails_and_pos_from_website env s m fuel).fetched.Nodup ∧
      ∀ u ∈ (scrape_emails_and_pos_from_website env s m fuel).fetched,
        u ∈ (scrape_emails_and_pos_from_website env s m fuel).visited :=
  ⟨fun _ _ _ _ _ _ h1 h2 h3 => crawlStep_fail h1 h2 h3,
    fun _ _ _ _ _ h => crawlLoop_succ h,
    fun env s m fuel =>
      ⟨(scrape_inv env s m fuel).2.2.2.2.1, (scrape_inv env s m fuel).2.2.2.2.2⟩⟩

theorem claim7_witness :
    crawlStep envFail [] 10 (initState "s".toList) =
      { emails := [], posSystem := [], loyalty := [], resPlatform := [],
        toScrape := [], visited := ["s".toList], linksScraped := 0,
        errors := 1, fetched := ["s".toList] } :=
  claim7_visited_before_fetch.1 envFail [] 10 (initState "s".toList)
    "s".toList [] rfl (by decide) rfl

/-- C9 (counterexample): there is no input text for which the pipeline
reports a string without `@`: the repaired local part can never contain
`.com`, so the post-pass truncation always happens at or beyond the `@`. -/
theorem claim9_counterexample :
    ¬ ∃ text e : List Char, e ∈ pipelineEmails text ∧ '@' ∉ e := by
  rintro ⟨text, e, he, hat⟩
  exact hat (at_mem_pipelineEmails he)

/-- C9 (amended): every string output by the email pipeline contains `@`:
the recovered local part never contains `.com` (it is a known-username
suffix, or starts at the last alphabetic run with no alphabetic character
after it), so the `.com` truncation never deletes the `@`. -/
theorem claim9_amended :
    ∀ text e : List Char, e ∈ pipelineEmails text → '@' ∈ e :=
  fun _ _ he => at_mem_pipelineEmails he

theorem claim9_witness : '@' ∈ "a@b.org".toList :=
  claim9_amended c9text "a@b.org".toList (by decide)

/-- C10: frontier admission never checks membership — a URL already visited
or already pending is appended whenever the cap allows; duplicates consume
admission slots, so a crawl can end with an empty frontier and fewer
successes than `maxPages` while a fresh link was rejected; and no URL is ever
fetched twice, since duplicates are discarded at dequeue time. -/
theorem claim10_duplicates :
    (∀ (m : Nat) (visited front : List Url) (u : Url),
        u ∈ visited → u ∈ front →
        visited.length + front.length < m + 1 →
        enqueue m visited front u = front ++ [u]) ∧
    ((scrape_emails_and_pos_from_website envDup "s".toList 3 10).linksScraped = 2 ∧
      (scrape_emails_and_pos_from_website envDup "s".toList 3 10).toScrape = [] ∧
      (scrape_emails_and_pos_from_website envDup "s".toList 3 10).fetched =
        ["s".toList, "a".toList]) ∧
    ∀ (env : WebEnv Url) (s : Url) (m fuel : Nat),
      (scrape_emails_and_pos_from_website env s m fuel).fetched.Nodup :=
  ⟨fun _ _ _ u _ _ h => enqueue_appends u h,
    by refine ⟨by decide, by decide, by decide⟩,
    fun env s m fuel => (scrape_inv env s m fuel).2.2.2.2.1⟩

theorem claim10_witness :
    enqueue 9 ["a".toList] ["a".toList] "a".toList = ["a".toList] ++ ["a".toList] :=
  (@claim10_duplicates (List Char) _).1 9 ["a".toList] ["a".toList]
    "a".toList (by decide) (by decide) (by decide)

/-- C8: for a crawl with `maxPages = 4` whose start page classifies into 3
priority links and 5 normal links, pairwise distinct and distinct from the
start URL, and whose priority pages fetch successfully (with any content),
the crawl makes exactly 4 successful fetches, namely the start page followed
by the three priority links in order — never a normal-bucket link. -/
theorem claim8_priority_budget :
    ∀ (env : WebEnv Url) (s p1 p2 p3 n1 n2 n3 n4 n5 : Url)
      (P0 Q1 Q2 Q3 : Page) (fuel : Nat),
      env.fetch s = some P0 →
      classifyLinks env (env.netloc s) s P0.anchors =
        ([p1, p2, p3], [n1, n2, n3, n4, n5]) →
      env.fetch p1 = some Q1 → env.fetch p2 = some Q2 → env.fetch p3 = some Q3 →
      p1 ≠ s → p2 ≠ s → p3 ≠ s → p2 ≠ p1 → p3 ≠ p1 → p3 ≠ p2 →
      4 ≤ fuel →
      (scrape_emails_and_pos_from_website env s 4 fuel).linksScraped = 4 ∧
      (scrape_emails_and_pos_from_website env s 4 fuel).fetched = [s, p1, p2, p3] := by
  intro env s p1 p2 p3 n1 n2 n3 n4 n5 P0 Q1 Q2 Q3 fuel
  intro hf0 hcl hf1 hf2 hf3 dp1 dp2 dp3 dp4 dp5 dp6 hfuel
  obtain ⟨k, rfl⟩ : ∃ k, fuel = k + 4 := ⟨fuel - 4, by omega⟩
  unfold scrape_emails_and_pos_from_website
  set b := env.netloc s with hb
  have e1 := crawlStep_success (b := b) (m := 4)
    (show (initState s).toScrape = s :: [] from rfl) (by simp [initState]) hf0
  set st1 := crawlStep env b 4 (initState s) with hst1
  have v1 : st1.visited = [s] := by rw [e1, processPage_visited]; rfl
  have f1 : st1.fetched = [s] := by rw [e1, processPage_fetched]; rfl
  have l1 : st1.linksScraped = 1 := by rw [e1, processPage_linksScraped]; rfl
  have t1 : st1.toScrape = [p1, p2, p3, n1] := by
    rw [e1, processPage_toScrape, hcl]
    simp [enqueueAll, enqueue, initState]
  obtain ⟨t2, v2a, f2a, l2a⟩ := crawlStep_success_saturated (b := b) (m := 4)
    t1 (by rw [v1]; simp [dp1]) hf1 (by rw [v1, t1]; simp)
  set st2 := crawlStep env b 4 st1 with hst2
  have v2 : st2.visited = [s, p1] := by rw [v2a, v1]; rfl
  have f2 : st2.fetched = [s, p1] := by rw [f2a, f1]; rfl
  have l2 : st2.linksScraped = 2 := by rw [l2a, l1]
  obtain ⟨t3, v3a, f3a, l3a⟩ := crawlStep_success_saturated (b := b) (m := 4)
    t2 (by rw [v2]; simp [dp2, dp4]) hf2 (by rw [v2, t2]; simp)
  set st3 := crawlStep env b 4 st2 with hst3
  have v3 : st3.visited = [s, p1, p2] := by rw [v3a, v2]; rfl
  have f3 : st3.fetched = [s, p1, p2] := by rw [f3a, f2]; rfl
  have l3 : st3.linksScraped = 3 := by rw [l3a, l2]
  obtain ⟨t4, v4a, f4a, l4a⟩ := crawlStep_success_saturated (b := b) (m := 4)
    t3 (by rw [v3]; simp [dp3, dp5, dp6]) hf3 (by rw [v3, t3]; simp)
  set st4 := crawlStep env b 4 st3 with hst4
  have f4 : st4.fetched = [s, p1, p2, p3] := by rw [f4a, f3]; rfl
  have l4 : st4.linksScraped = 4 := by rw [l4a, l3]
  have L1 : crawlLoop env b 4 (k + 4) (initState s) = crawlLoop env b 4 (k + 3) st1 :=
    crawlLoop_succ (f := k + 3) (by simp [initState])
  have L2 : crawlLoop env b 4 (k + 3) st1 = crawlLoop env b 4 (k + 2) st2 :=
    crawlLoop_succ (f := k + 2) (by simp [t1, l1])
  have L3 : crawlLoop env b 4 (k + 2) st2 = crawlLoop env b 4 (k + 1) st3 :=
    crawlLoop_succ (f := k + 1) (by simp [t2, l2])
  have L4 : crawlLoop env b 4 (k + 1) st3 = crawlLoop env b 4 k st4 :=
    crawlLoop_succ (f := k) (by simp [t3, l3])
  have L5 : crawlLoop env b 4 k st4 = st4 :=
    crawlLoop_done (Or.inr (by rw [l4]))
  rw [L1, L2, L3, L4, L5]
  exact ⟨l4, f4⟩

theorem claim8_witness :
    (scrape_emails_and_pos_from_website envPrio "s".toList 4 10).linksScraped = 4 ∧
    (scrape_emails_and_pos_from_website envPrio "s".toList 4 10).fetched =
      ["s".toList, "bookA".toList, "bookB".toList, "bookC".toList] :=
  claim8_priority_budget envPrio "s".toList "bookA".toList "bookB".toList
    "bookC".toList "n1".toList "n2".toList "n3".toList "n4".toList "n5".toList
    pagePrioStart pageEmpty pageEmpty pageEmpty 10
    rfl (by decide) rfl rfl rfl
    (by decide) (by decide) (by decide) (by decide) (by decide) (by decide)
    (by decide)

end RInfo
